import Mathlib

/-!
Verification of the sharded dataset access layer (webdataset / wids examples).

The repository's own source consists of example notebooks that drive the
library components (brace-pattern shard resolution, the streaming pipeline
with `split_by_node` / `with_epoch`, the indexed `ShardListDataset` with its
global index and LRU cache, and the `DistributedChunkedSampler`).  The
component implementations themselves are not part of the provided sources,
so each component is modelled here from the specification's description and
the claims are settled against those models.
-/

namespace WebDS

/-! ## Shard Reference Resolver: brace-pattern expansion -/

/-- The left-brace character, written by code point to keep it out of literals. -/
def lbrace : Char := Char.ofNat 123

/-- The right-brace character, written by code point. -/
def rbrace : Char := Char.ofNat 125

/-- The dot character used in `lo..hi` ranges. -/
def dotChar : Char := '.'

/-- Modelled from the spec: error raised by the Shard Reference Resolver on a
bad brace pattern (`MalformedPatternError`), split into its two causes named
by the spec: an unbalanced brace, or a non-numeric brace range. -/
inductive PatternError where
  | unbalanced
  | nonNumeric
deriving DecidableEq

/-- One parsed element of a brace pattern: a literal character, or a
`lo..hi` numeric range (both bounds kept as their digit strings). -/
inductive Seg where
  | lit (c : Char)
  | numRange (lo hi : List Char)
deriving DecidableEq

/-- Scan up to the next right brace, returning the characters before it and
the remainder after it; `none` if no right brace occurs (unbalanced). -/
def takeUpToRBrace : List Char → Option (List Char × List Char)
  | [] => none
  | c :: r =>
    if c = rbrace then some ([], r)
    else
      match takeUpToRBrace r with
      | none => none
      | some (a, b) => some (c :: a, b)

/-- Parse the inside of a brace segment as `lo..hi` with both bounds
non-empty digit strings. -/
def parseRange (content : List Char) : Option (List Char × List Char) :=
  let lo := content.takeWhile Char.isDigit
  let rest := content.dropWhile Char.isDigit
  match rest with
  | c1 :: c2 :: hi =>
    if c1 = dotChar then
      if c2 = dotChar then
        if lo.isEmpty then none
        else if hi.isEmpty then none
        else if hi.all Char.isDigit then some (lo, hi) else none
      else none
    else none
  | _ => none

/-- Modelled from the spec: parse a brace-pattern string (the Shard Reference
Resolver's pattern input, whose implementation is not under src) into literal
and range segments; fails on an unbalanced brace or a non-numeric range.
The first argument is recursion fuel; any fuel larger than the input length
gives the parser's value. -/
def parseSegsAux : Nat → List Char → Except PatternError (List Seg)
  | 0, _ => .error .unbalanced
  | _ + 1, [] => .ok []
  | fuel + 1, c :: r =>
    if c = lbrace then
      match takeUpToRBrace r with
      | none => .error .unbalanced
      | some (content, rest) =>
        match parseRange content with
        | none => .error .nonNumeric
        | some (lo, hi) =>
          (parseSegsAux fuel rest).map (fun segs => Seg.numRange lo hi :: segs)
    else if c = rbrace then .error .unbalanced
    else (parseSegsAux fuel r).map (fun segs => Seg.lit c :: segs)

/-- Parse a full pattern, with enough fuel for the whole input. -/
def parseSegs (cs : List Char) : Except PatternError (List Seg) :=
  parseSegsAux (cs.length + 1) cs

/-- Decimal digit character for a digit value. -/
def digitChar : Nat → Char
  | 0 => '0'
  | 1 => '1'
  | 2 => '2'
  | 3 => '3'
  | 4 => '4'
  | 5 => '5'
  | 6 => '6'
  | 7 => '7'
  | 8 => '8'
  | 9 => '9'
  | _ + 10 => '0'

/-- Decimal digit string of a natural number (fuelled; fuel `n + 1` suffices). -/
def digitsAux : Nat → Nat → List Char
  | 0, _ => []
  | fuel + 1, n => if n < 10 then [digitChar n] else digitsAux fuel (n / 10) ++ [digitChar (n % 10)]

/-- Decimal digit string of a natural number. -/
def digitsOf (n : Nat) : List Char := digitsAux (n + 1) n

/-- Left-pad a digit string with zeros to the requested width. -/
def padLeft (w : Nat) (l : List Char) : List Char := List.replicate (w - l.length) '0' ++ l

/-- Numeric value of a digit string. -/
def natOfDigits (l : List Char) : Nat := l.foldl (fun acc c => acc * 10 + (c.toNat - 48)) 0

/-- Modelled from the spec: the strings one segment contributes.  A literal
contributes itself; a `lo..hi` range contributes the numbers `lo` to `hi`,
zero-padded to the digit count of `lo`. -/
def segOptions : Seg → List (List Char)
  | .lit c => [[c]]
  | .numRange lo hi =>
    let loV := natOfDigits lo
    let hiV := natOfDigits hi
    (List.range (hiV + 1 - loV)).map (fun k => padLeft lo.length (digitsOf (loV + k)))

/-- Modelled from the spec: Cartesian product of the per-segment options, in
segment order. -/
def expandSegs : List Seg → List (List Char)
  | [] => [[]]
  | s :: rest => (segOptions s).flatMap (fun o => (expandSegs rest).map (fun t => o ++ t))

/-- Modelled from the spec: `braceexpand`, the Shard Reference Resolver's
expansion of a brace-pattern string (not under src; the notebooks only call
it) into the ordered list of shard locator strings. -/
def braceexpand (s : String) : Except PatternError (List String) :=
  (parseSegs s.toList).map (fun segs => (expandSegs segs).map (fun cs => String.mk cs))

end WebDS

namespace WebDS

/-- A brace-pattern segment whose every expansion is free of brace characters. -/
def segGood (s : Seg) : Prop :=
  ∀ o ∈ segOptions s, ∀ c ∈ o, c ≠ lbrace ∧ c ≠ rbrace

theorem digitChar_ne_brace (d : Nat) : digitChar d ≠ lbrace ∧ digitChar d ≠ rbrace := by
  match d with
  | 0 | 1 | 2 | 3 | 4 | 5 | 6 | 7 | 8 | 9 => exact (by decide)
  | n + 10 => simp only [digitChar]; exact (by decide)

theorem digitsAux_ne_brace :
    ∀ (fuel n : Nat), ∀ c ∈ digitsAux fuel n, c ≠ lbrace ∧ c ≠ rbrace := by
  intro fuel
  induction fuel with
  | zero => intro n c h; simp [digitsAux] at h
  | succ f ih =>
    intro n c h
    rw [digitsAux] at h
    by_cases h10 : n < 10
    · rw [if_pos h10] at h
      simp at h
      subst h
      exact digitChar_ne_brace n
    · rw [if_neg h10] at h
      rcases List.mem_append.mp h with h1 | h2
      · exact ih _ _ h1
      · simp at h2
        subst h2
        exact digitChar_ne_brace _

theorem padLeft_ne_brace (w : Nat) (l : List Char)
    (hl : ∀ c ∈ l, c ≠ lbrace ∧ c ≠ rbrace) :
    ∀ c ∈ padLeft w l, c ≠ lbrace ∧ c ≠ rbrace := by
  intro c hc
  rcases List.mem_append.mp hc with h1 | h2
  · have := List.eq_of_mem_replicate h1
    subst this
    exact (by decide)
  · exact hl c h2

theorem segGood_numRange (lo hi : List Char) : segGood (.numRange lo hi) := by
  intro o ho c hc
  simp only [segOptions, List.mem_map, List.mem_range] at ho
  obtain ⟨k, _, rfl⟩ := ho
  exact padLeft_ne_brace _ _ (fun c2 hc2 => digitsAux_ne_brace _ _ c2 hc2) c hc

theorem segGood_lit (c : Char) (h1 : c ≠ lbrace) (h2 : c ≠ rbrace) :
    segGood (.lit c) := by
  intro o ho c2 hc2
  simp only [segOptions, List.mem_singleton] at ho
  subst ho
  simp at hc2
  subst hc2
  exact ⟨h1, h2⟩

theorem parseSegsAux_good :
    ∀ (fuel : Nat) (cs : List Char) (segs : List Seg),
      parseSegsAux fuel cs = .ok segs → ∀ s ∈ segs, segGood s := by
  intro fuel
  induction fuel with
  | zero => intro cs segs h; simp [parseSegsAux] at h
  | succ f ih =>
    intro cs segs h
    match cs with
    | [] =>
      rw [parseSegsAux] at h
      cases h
      intro s hs
      simp at hs
    | c :: r =>
      rw [parseSegsAux] at h
      by_cases hcl : c = lbrace
      · rw [if_pos hcl] at h
        cases htk : takeUpToRBrace r with
        | none => rw [htk] at h; simp at h
        | some p =>
          obtain ⟨content, rest⟩ := p
          rw [htk] at h
          dsimp only at h
          cases hpr : parseRange content with
          | none => rw [hpr] at h; simp at h
          | some q =>
            obtain ⟨lo, hi⟩ := q
            rw [hpr] at h
            cases hrec : parseSegsAux f rest with
            | error e => rw [hrec] at h; simp [Except.map] at h
            | ok segs2 =>
              rw [hrec] at h
              simp [Except.map] at h
              subst h
              intro s hs
              rcases List.mem_cons.mp hs with h1 | h2
              · subst h1; exact segGood_numRange lo hi
              · exact ih rest segs2 hrec s h2
      · rw [if_neg hcl] at h
        by_cases hcr : c = rbrace
        · rw [if_pos hcr] at h; simp at h
        · rw [if_neg hcr] at h
          cases hrec : parseSegsAux f r with
          | error e => rw [hrec] at h; simp [Except.map] at h
          | ok segs2 =>
            rw [hrec] at h
            simp [Except.map] at h
            subst h
            intro s hs
            rcases List.mem_cons.mp hs with h1 | h2
            · subst h1; exact segGood_lit c hcl hcr
            · exact ih r segs2 hrec s h2

theorem expandSegs_good :
    ∀ (segs : List Seg), (∀ s ∈ segs, segGood s) →
      ∀ o ∈ expandSegs segs, ∀ c ∈ o, c ≠ lbrace ∧ c ≠ rbrace := by
  intro segs
  induction segs with
  | nil =>
    intro _ o ho c hc
    simp [expandSegs] at ho
    subst ho
    simp at hc
  | cons s rest ih =>
    intro hgood o ho c hc
    simp only [expandSegs, List.mem_flatMap, List.mem_map] at ho
    obtain ⟨o1, ho1, t, ht, rfl⟩ := ho
    rcases List.mem_append.mp hc with h1 | h2
    · exact hgood s (by simp) o1 ho1 c h1
    · exact ih (fun s2 hs2 => hgood s2 (by simp [hs2])) t ht c h2

theorem parseSegsAux_lit :
    ∀ (fuel : Nat) (cs : List Char), cs.length < fuel →
      (∀ c ∈ cs, c ≠ lbrace ∧ c ≠ rbrace) →
      parseSegsAux fuel cs = .ok (cs.map Seg.lit) := by
  intro fuel
  induction fuel with
  | zero => intro cs h; omega
  | succ f ih =>
    intro cs hlen hcs
    match cs with
    | [] => rfl
    | c :: r =>
      have hc := hcs c (by simp)
      rw [parseSegsAux, if_neg hc.1, if_neg hc.2,
        ih r (by simp at hlen; omega) (fun c2 hc2 => hcs c2 (by simp [hc2]))]
      rfl

theorem expandSegs_lit : ∀ (cs : List Char), expandSegs (cs.map Seg.lit) = [cs] := by
  intro cs
  induction cs with
  | nil => rfl
  | cons c r ih => simp [expandSegs, segOptions, ih]

theorem braceexpand_roundtrip (p : String) (outs : List String)
    (h : braceexpand p = .ok outs) : ∀ t ∈ outs, braceexpand t = .ok [t] := by
  intro t ht
  unfold braceexpand at h
  cases hp : parseSegs p.toList with
  | error e => rw [hp] at h; simp [Except.map] at h
  | ok segs =>
    rw [hp] at h
    simp [Except.map] at h
    subst h
    simp only [List.mem_map] at ht
    obtain ⟨cs, hcs, rfl⟩ := ht
    have hnb : ∀ c ∈ cs, c ≠ lbrace ∧ c ≠ rbrace :=
      expandSegs_good segs (parseSegsAux_good _ _ _ hp) cs hcs
    have htl : (String.mk cs).toList = cs := rfl
    unfold braceexpand parseSegs
    rw [htl, parseSegsAux_lit _ cs (by omega) hnb]
    simp [Except.map, expandSegs_lit]

end WebDS

namespace WebDS

/-- C6: for every valid brace-pattern string, each lo..hi segment expands
into the Cartesian product of zero-padded numeric ranges with padding width
the digit count of lo (illustrated by the second conjunct), resolving a
valid pattern and re-serializing the expanded list round-trips to the same
ordered locator set (each expanded locator re-expands to exactly itself),
and resolution fails with the malformed-pattern error on an unbalanced or
non-numeric brace range. -/
theorem braceexpand_expansion_roundtrip_and_errors :
    (∀ (p : String) (outs : List String), braceexpand p = .ok outs →
      ∀ t ∈ outs, braceexpand t = .ok [t]) ∧
    braceexpand "a-\x7b01..03\x7d-\x7b1..2\x7d.tar" =
      .ok ["a-01-1.tar", "a-01-2.tar", "a-02-1.tar",
           "a-02-2.tar", "a-03-1.tar", "a-03-2.tar"] ∧
    braceexpand "\x7b1..3" = .error .unbalanced ∧
    braceexpand "\x7ba..b\x7d" = .error .nonNumeric :=
  ⟨braceexpand_roundtrip, rfl, rfl, rfl⟩

/-- Witness for C6: the round-trip conjunct applied at a concrete pattern. -/
theorem braceexpand_expansion_roundtrip_witness :
    braceexpand "x-2.tar" = .ok ["x-2.tar"] :=
  braceexpand_expansion_roundtrip_and_errors.1 "x-\x7b1..2\x7d.tar"
    ["x-1.tar", "x-2.tar"] rfl "x-2.tar" (by decide)

/-- The streaming dataset constructor's shard argument: either a single
brace-pattern string, or an explicit list of already-expanded shard URLs. -/
inductive ShardSpec where
  | patternStr (s : String)
  | urls (l : List String)

/-- Modelled from the spec: the Shard Reference Resolver step of the
streaming dataset constructor (`WebDataset`, called by the notebooks but not
itself under src) resolves a brace-pattern string by expansion and takes an
explicit URL list as is, yielding the ordered shard sequence the stream
reads. -/
def resolveShards : ShardSpec → Except PatternError (List String)
  | .patternStr s => braceexpand s
  | .urls l => .ok l

/-- C10: constructing the streaming dataset from a brace-pattern string
yields the same ordered shard sequence (hence the same sample stream under
identical settings) as constructing it from the explicit list obtained by
expanding that pattern. -/
theorem resolveShards_pattern_eq_urls (p : String) (l : List String)
    (h : braceexpand p = .ok l) :
    resolveShards (.patternStr p) = resolveShards (.urls l) := by
  simp [resolveShards, h]

/-- Witness for C10: the equivalence at a concrete pattern and its expansion. -/
theorem resolveShards_pattern_eq_urls_witness :
    resolveShards (.patternStr "a-\x7b1..3\x7d.tar") =
      resolveShards (.urls ["a-1.tar", "a-2.tar", "a-3.tar"]) :=
  resolveShards_pattern_eq_urls _ _ rfl

end WebDS

namespace WebDS

/-! ## Global Index: cumulative counts and binary-searched locate -/

/-- Modelled from the spec: the Global Index's programmer error raised when a
global index is at least the total sample count (`IndexOutOfRangeError`). -/
inductive GIndexError where
  | indexOutOfRange
deriving DecidableEq

/-- Number of samples before shard `i` (cumulative count). -/
def startAt (counts : List Nat) (i : Nat) : Nat := (counts.take i).sum

/-- Number of samples up to and including shard `i` (cumulative count). -/
def endAt (counts : List Nat) (i : Nat) : Nat := (counts.take (i + 1)).sum

/-- Binary search (fuelled; fuel `hi - lo` suffices): least index in
`[lo, hi]` satisfying a monotone predicate, assuming it holds at `hi`. -/
def lboundAux : Nat → (Nat → Bool) → Nat → Nat → Nat
  | 0, _, lo, _ => lo
  | fuel + 1, P, lo, hi =>
    if lo < hi then
      let mid := (lo + hi) / 2
      if P mid then lboundAux fuel P lo mid else lboundAux fuel P (mid + 1) hi
    else lo

/-- Binary search with enough fuel for its interval. -/
def lbound (P : Nat → Bool) (lo hi : Nat) : Nat := lboundAux (hi - lo) P lo hi

/-- Modelled from the spec: `ShardListDataset`'s global index `locate`
(not under src; the notebooks only construct the dataset): binary search over
cumulative per-shard sample counts, mapping a global index to a pair of shard
index and local offset, and failing with the out-of-range error when the
index is at least the total. -/
def locate (counts : List Nat) (g : Nat) : Except GIndexError (Nat × Nat) :=
  if g < counts.sum then
    let i := lbound (fun j => decide (g < endAt counts j)) 0 (counts.length - 1)
    .ok (i, g - startAt counts i)
  else .error .indexOutOfRange

theorem take_sum_mono (l : List Nat) {a b : Nat} (h : a ≤ b) :
    (l.take a).sum ≤ (l.take b).sum := by
  calc (l.take a).sum = ((l.take b).take a).sum := by
        rw [List.take_take, Nat.min_eq_left h]
    _ ≤ ((l.take b).take a).sum + ((l.take b).drop a).sum := Nat.le_add_right _ _
    _ = ((l.take b).take a ++ (l.take b).drop a).sum := (List.sum_append).symm
    _ = (l.take b).sum := by rw [List.take_append_drop]

theorem startAt_mono (counts : List Nat) {a b : Nat} (h : a ≤ b) :
    startAt counts a ≤ startAt counts b := take_sum_mono counts h

theorem endAt_mono (counts : List Nat) {a b : Nat} (h : a ≤ b) :
    endAt counts a ≤ endAt counts b := take_sum_mono counts (by omega)

theorem endAt_eq_startAt_succ (counts : List Nat) (i : Nat) :
    endAt counts i = startAt counts (i + 1) := rfl

theorem endAt_eq_startAt_add (counts : List Nat) (i : Nat) (h : i < counts.length) :
    endAt counts i = startAt counts i + counts.get ⟨i, h⟩ := by
  unfold endAt startAt
  rw [List.sum_take_succ counts i h]
  rfl

theorem lboundAux_spec (P : Nat → Bool)
    (hmono : ∀ i j, i ≤ j → P i = true → P j = true) :
    ∀ (d lo hi : Nat), hi - lo ≤ d → lo ≤ hi → P hi = true →
      (∀ j, j < lo → P j = false) →
      lo ≤ lboundAux d P lo hi ∧ lboundAux d P lo hi ≤ hi ∧
        P (lboundAux d P lo hi) = true ∧
        ∀ j, j < lboundAux d P lo hi → P j = false := by
  intro d
  induction d with
  | zero =>
    intro lo hi hd hle hhi hinv
    have : hi = lo := by omega
    subst this
    rw [lboundAux]
    exact ⟨Nat.le_refl _, Nat.le_refl _, hhi, hinv⟩
  | succ n ih =>
    intro lo hi hd hle hhi hinv
    by_cases hlt : lo < hi
    · rw [lboundAux, if_pos hlt]
      by_cases hmid : P ((lo + hi) / 2) = true
      · rw [if_pos hmid]
        have := ih lo ((lo + hi) / 2) (by omega) (by omega) hmid hinv
        exact ⟨this.1, by omega, this.2.2⟩
      · rw [if_neg hmid]
        have hinv2 : ∀ j, j < (lo + hi) / 2 + 1 → P j = false := by
          intro j hj
          by_cases hPj : P j = true
          · exact absurd (hmono j ((lo + hi) / 2) (by omega) hPj) hmid
          · simpa using hPj
        have := ih ((lo + hi) / 2 + 1) hi (by omega) (by omega) hhi hinv2
        exact ⟨by omega, this.2.1, this.2.2⟩
    · rw [lboundAux, if_neg hlt]
      have : hi = lo := by omega
      subst this
      exact ⟨Nat.le_refl _, Nat.le_refl _, hhi, hinv⟩

theorem lbound_spec (P : Nat → Bool)
    (hmono : ∀ i j, i ≤ j → P i = true → P j = true)
    (lo hi : Nat) (hle : lo ≤ hi) (hhi : P hi = true)
    (hinv : ∀ j, j < lo → P j = false) :
    lo ≤ lbound P lo hi ∧ lbound P lo hi ≤ hi ∧
      P (lbound P lo hi) = true ∧ ∀ j, j < lbound P lo hi → P j = false :=
  lboundAux_spec P hmono (hi - lo) lo hi (Nat.le_refl _) hle hhi hinv

theorem locate_core (counts : List Nat) (g : Nat) (hg : g < counts.sum) :
    ∃ r, r < counts.length ∧ startAt counts r ≤ g ∧ g < endAt counts r ∧
      locate counts g = .ok (r, g - startAt counts r) := by
  have hne : counts.length ≠ 0 := by
    intro h0
    rw [List.eq_nil_of_length_eq_zero h0] at hg
    simp at hg
  set P : Nat → Bool := fun j => decide (g < endAt counts j) with hP
  have hmono : ∀ i j, i ≤ j → P i = true → P j = true := by
    intro i j hij hPi
    simp only [hP, decide_eq_true_eq] at hPi ⊢
    exact Nat.lt_of_lt_of_le hPi (endAt_mono counts hij)
  have hhi : P (counts.length - 1) = true := by
    simp only [hP, decide_eq_true_eq]
    have : endAt counts (counts.length - 1) = counts.sum := by
      unfold endAt
      rw [show counts.length - 1 + 1 = counts.length by omega, List.take_length]
    omega
  obtain ⟨h1, h2, h3, h4⟩ :=
    lbound_spec P hmono 0 (counts.length - 1) (by omega) hhi
      (fun j hj => absurd hj (Nat.not_lt_zero j))
  set r := lbound P 0 (counts.length - 1) with hr
  refine ⟨r, by omega, ?_, ?_, ?_⟩
  · by_cases hr0 : r = 0
    · simp [hr0, startAt]
    · have hprev : P (r - 1) = false := h4 (r - 1) (by omega)
      simp only [hP, decide_eq_false_iff_not, Nat.not_lt] at hprev
      calc startAt counts r = endAt counts (r - 1) := by
            rw [endAt_eq_startAt_succ]
            congr 1
            omega
        _ ≤ g := hprev
  · simpa [hP] using h3
  · unfold locate
    rw [if_pos hg]

/-- C2: for every manifest with all per-shard sample counts known, the
Global Index's binary-searched `locate` maps the global index
`startAt i + off` to exactly `(i, off)` for every shard `i` and every local
offset `off` below that shard's count (covering each shard's full local
range exactly once with no gaps), every in-range global index yields some
such in-range pair, `locate` fails with the out-of-range error exactly when
the global index is at least the total, and the counts `[3, 5, 2]` produce
the documented mapping table. -/
theorem locate_partitions_index_space :
    (∀ (counts : List Nat) (i off : Nat) (h : i < counts.length),
      off < counts.get ⟨i, h⟩ →
      locate counts (startAt counts i + off) = .ok (i, off)) ∧
    (∀ (counts : List Nat) (g : Nat), g < counts.sum →
      ∃ r, ∃ h2 : r < counts.length, ∃ off, off < counts.get ⟨r, h2⟩ ∧
        locate counts g = .ok (r, off)) ∧
    (∀ (counts : List Nat) (g : Nat),
      locate counts g = .error .indexOutOfRange ↔ counts.sum ≤ g) ∧
    (List.range 10).map (fun g => (locate [3, 5, 2] g).toOption) =
      [some (0, 0), some (0, 1), some (0, 2), some (1, 0), some (1, 1),
       some (1, 2), some (1, 3), some (1, 4), some (2, 0), some (2, 1)] ∧
    locate [3, 5, 2] 10 = .error .indexOutOfRange := by
  refine ⟨?_, ?_, ?_, rfl, rfl⟩
  · intro counts i off h hoff
    have hg : startAt counts i + off < counts.sum := by
      have h1 : startAt counts i + off < endAt counts i := by
        rw [endAt_eq_startAt_add counts i h]
        omega
      have h2 : endAt counts i ≤ counts.sum := by
        unfold endAt
        calc (counts.take (i + 1)).sum ≤ (counts.take counts.length).sum :=
              take_sum_mono counts (by omega)
          _ = counts.sum := by rw [List.take_length]
      omega
    obtain ⟨r, hrlen, hrlo, hrhi, hres⟩ := locate_core counts _ hg
    have hri : r = i := by
      rcases Nat.lt_trichotomy r i with hlt | heq | hgt
      · exfalso
        have : endAt counts r ≤ startAt counts i := by
          rw [endAt_eq_startAt_succ]
          exact startAt_mono counts (by omega)
        omega
      · exact heq
      · exfalso
        have : endAt counts i ≤ startAt counts r := by
          rw [endAt_eq_startAt_succ]
          exact startAt_mono counts (by omega)
        have hei : startAt counts i + off < endAt counts i := by
          rw [endAt_eq_startAt_add counts i h]
          omega
        omega
    subst hri
    rw [hres]
    congr 2
    omega
  · intro counts g hg
    obtain ⟨r, hrlen, hrlo, hrhi, hres⟩ := locate_core counts g hg
    refine ⟨r, hrlen, g - startAt counts r, ?_, hres⟩
    have := endAt_eq_startAt_add counts r hrlen
    omega
  · intro counts g
    unfold locate
    by_cases hg : g < counts.sum
    · rw [if_pos hg]
      simp
      omega
    · rw [if_neg hg]
      simp
      omega

/-- Witness for C2: the per-shard coverage conjunct applied at counts
`[3, 5, 2]`, shard 1, offset 4 (global index 7). -/
theorem locate_partitions_index_space_witness :
    locate [3, 5, 2] (startAt [3, 5, 2] 1 + 4) = .ok (1, 4) :=
  locate_partitions_index_space.1 [3, 5, 2] 1 4 (by decide) (by decide)

end WebDS

namespace WebDS

/-! ## Chunked Distributed Sampler -/

/-- A 64-bit linear congruential step, the deterministic pseudo-random
source used by the sampler model. -/
def lcgNext (s : Nat) : Nat :=
  (6364136223846793005 * s + 1442695040888963407) % (2 ^ 64)

/-- Seeded selection shuffle (fuelled; fuel `l.length` suffices): repeatedly
pick the element at position `state % length` and advance the state. -/
def shuffleAux : Nat → Nat → List α → List α
  | 0, _, _ => []
  | _ + 1, _, [] => []
  | fuel + 1, s, a :: rest =>
    (a :: rest).get ⟨s % (rest.length + 1), Nat.mod_lt _ (Nat.succ_pos _)⟩ ::
      shuffleAux fuel (lcgNext s) ((a :: rest).eraseIdx (s % (rest.length + 1)))

/-- Modelled from the spec: the seeded pseudo-random permutation used by the
Chunked Distributed Sampler (whose implementation is not under src) for the
chunk order and for in-chunk index order. -/
def shuffleSeeded (s : Nat) (l : List α) : List α := shuffleAux l.length s l

/-- Number of fixed-size chunks covering `total` indices (last may be short). -/
def numChunks (total C : Nat) : Nat := (total + C - 1) / C

/-- Modelled from the spec: partition of `[0, total)` into contiguous chunks
of size `C`, each chunk a pair of start index and length; the last chunk may
be shorter. -/
def chunkList (total C : Nat) : List (Nat × Nat) :=
  (List.range (numChunks total C)).map (fun k => (k * C, min C (total - k * C)))

/-- The global indices of one chunk. -/
def chunkIndices (ch : Nat × Nat) : List Nat := List.range' ch.1 ch.2

/-- Modelled from the spec: the epoch-derived pseudo-random seed, combining
the base seed and the epoch number. -/
def epochSeed (seed epoch : Nat) : Nat := lcgNext (seed + epoch)

/-- Modelled from the spec: the in-chunk shuffle seed, derived from the
epoch and the chunk id (its start index), not from the global seed. -/
def chunkSeed (epoch : Nat) (ch : Nat × Nat) : Nat := lcgNext (lcgNext epoch + ch.1)

/-- The epoch's chunk order: the chunk list permuted by the epoch seed. -/
def permutedChunks (total C seed epoch : Nat) : List (Nat × Nat) :=
  shuffleSeeded (epochSeed seed epoch) (chunkList total C)

/-- Modelled from the spec: round-robin chunk assignment — the i-th chunk in
permuted order goes to slot `i % slots`. -/
def slotChunks (total C seed epoch slots slot : Nat) : List (Nat × Nat) :=
  ((permutedChunks total C seed epoch).enum.filter
    (fun p => p.1 % slots = slot)).map Prod.snd

/-- Modelled from the spec: a slot's index sequence for the epoch — its
assigned chunks in assigned order, each chunk's indices shuffled by the
chunk-derived seed, concatenated. -/
def slotSeq (total C seed epoch slots slot : Nat) : List Nat :=
  ((slotChunks total C seed epoch slots slot).map
    (fun ch => shuffleSeeded (chunkSeed epoch ch) (chunkIndices ch))).flatten

/-- The `(rank, worker)` pair's index sequence: its slot is
`rank * num_workers + worker` among `world_size * num_workers` slots. -/
def rankWorkerSeq (total C ws nw seed epoch rank worker : Nat) : List Nat :=
  slotSeq total C seed epoch (ws * nw) (rank * nw + worker)

/-- The union (in order of rank, then worker) of all per-(rank, worker)
index sequences of one epoch. -/
def allIndices (total C ws nw seed epoch : Nat) : List Nat :=
  ((List.range ws).map (fun rank =>
    ((List.range nw).map (fun worker =>
      rankWorkerSeq total C ws nw seed epoch rank worker)).flatten)).flatten

end WebDS

namespace WebDS

theorem get_cons_eraseIdx_perm :
    ∀ (l : List α) (i : Nat) (h : i < l.length),
      (l.get ⟨i, h⟩ :: l.eraseIdx i).Perm l := by
  intro l
  induction l with
  | nil => intro i h; simp at h
  | cons a t ih =>
    intro i h
    match i with
    | 0 => simp [List.eraseIdx]
    | i + 1 =>
      have hi : i < t.length := by simpa using h
      exact (List.Perm.swap a (t.get ⟨i, hi⟩) (t.eraseIdx i)).trans ((ih i hi).cons a)

theorem shuffleAux_perm :
    ∀ (fuel s : Nat) (l : List α), l.length ≤ fuel → (shuffleAux fuel s l).Perm l := by
  intro fuel
  induction fuel with
  | zero =>
    intro s l h
    have : l = [] := List.eq_nil_of_length_eq_zero (by omega)
    subst this
    simp [shuffleAux]
  | succ f ih =>
    intro s l h
    match l with
    | [] => simp [shuffleAux]
    | a :: rest =>
      rw [shuffleAux]
      have hidx : s % (rest.length + 1) < (a :: rest).length :=
        Nat.mod_lt _ (Nat.succ_pos _)
      have hlen : ((a :: rest).eraseIdx (s % (rest.length + 1))).length ≤ f := by
        rw [List.length_eraseIdx, if_pos hidx]
        simp only [List.length_cons] at h ⊢
        omega
      exact ((ih (lcgNext s) _ hlen).cons _).trans
        (get_cons_eraseIdx_perm (a :: rest) _ hidx)

theorem shuffleSeeded_perm (s : Nat) (l : List α) : (shuffleSeeded s l).Perm l :=
  shuffleAux_perm l.length s l (Nat.le_refl _)

theorem numChunks_mul_lt {total C m : Nat} (hC : 0 < C) (hm : m < numChunks total C) :
    m * C < total := by
  unfold numChunks at hm
  have h1 : (m + 1) * C ≤ total + C - 1 :=
    (Nat.le_div_iff_mul_le hC).mp hm
  have h2 : (m + 1) * C = m * C + C := by ring
  omega

theorem total_le_numChunks_mul {total C : Nat} (hC : 0 < C) :
    total ≤ numChunks total C * C := by
  unfold numChunks
  have h1 := Nat.div_add_mod (total + C - 1) C
  have h2 : (total + C - 1) % C < C := Nat.mod_lt _ hC
  have h3 : ((total + C - 1) / C) * C = C * ((total + C - 1) / C) := Nat.mul_comm _ _
  omega

theorem chunkAux_flatten (total C : Nat) (hC : 0 < C) :
    ∀ m, m ≤ numChunks total C →
      ((List.range m).map
        (fun k => chunkIndices (k * C, min C (total - k * C)))).flatten
        = List.range' 0 (min (m * C) total) := by
  intro m
  induction m with
  | zero => simp
  | succ m ih =>
    intro hm
    rw [List.range_succ, List.map_append, List.flatten_append, ih (by omega)]
    simp only [List.map_cons, List.map_nil, List.flatten_cons, List.flatten_nil,
      List.append_nil]
    have hmC : m * C < total := numChunks_mul_lt hC (by omega)
    have hmin : min (m * C) total = m * C := by omega
    rw [hmin]
    unfold chunkIndices
    have happ := List.range'_append 0 (m * C) (min C (total - m * C)) 1
    simp only [Nat.one_mul, Nat.zero_add] at happ
    rw [happ]
    congr 1
    have hsucc : (m + 1) * C = m * C + C := by ring
    omega

theorem chunkList_flatten (total C : Nat) (hC : 0 < C) :
    ((chunkList total C).map chunkIndices).flatten = List.range total := by
  unfold chunkList
  rw [List.map_map]
  have haux := chunkAux_flatten total C hC (numChunks total C) (Nat.le_refl _)
  have hcomp :
      (chunkIndices ∘ fun k => ((k * C, min C (total - k * C)) : Nat × Nat)) =
        fun k => chunkIndices (k * C, min C (total - k * C)) := rfl
  rw [hcomp, haux]
  have h2 : min (numChunks total C * C) total = total := by
    have := @total_le_numChunks_mul total C hC
    omega
  rw [h2, List.range_eq_range']

theorem map_if_eq_of_not_mem {β : Type} (ss : List Nat) (g : Nat → List β) (x : β)
    (k : Nat) (hk : k ∉ ss) :
    ss.map (fun s => if k = s then x :: g s else g s) = ss.map g := by
  induction ss with
  | nil => rfl
  | cons s t ih =>
    have h1 : k ≠ s := fun h => hk (h ▸ List.mem_cons_self _ _)
    have h2 : k ∉ t := fun h => hk (List.mem_cons_of_mem _ h)
    simp only [List.map_cons]
    rw [if_neg h1, ih h2]

theorem flatten_map_if_cons_perm {β : Type} :
    ∀ (ss : List Nat) (g : Nat → List β) (x : β) (k : Nat), k ∈ ss → ss.Nodup →
      ((ss.map (fun s => if k = s then x :: g s else g s)).flatten).Perm
        (x :: (ss.map g).flatten) := by
  intro ss
  induction ss with
  | nil => intro g x k hk _; simp at hk
  | cons s t ih =>
    intro g x k hk hnd
    by_cases hks : k = s
    · subst hks
      have hkt : k ∉ t := (List.nodup_cons.mp hnd).1
      simp only [List.map_cons, List.flatten_cons, if_pos rfl]
      rw [map_if_eq_of_not_mem t g x k hkt]
      simp
    · have hkt : k ∈ t := by
        rcases List.mem_cons.mp hk with h | h
        · exact absurd h hks
        · exact h
      have hnd2 : t.Nodup := (List.nodup_cons.mp hnd).2
      simp only [List.map_cons, List.flatten_cons]
      rw [if_neg hks]
      exact (List.Perm.append_left (g s) (ih g x k hkt hnd2)).trans List.perm_middle

theorem flatten_range_filter_perm {β : Type} :
    ∀ (L : List β) (key : β → Nat) (n : Nat), (∀ x ∈ L, key x < n) →
      (((List.range n).map
        (fun s => L.filter (fun x => decide (key x = s)))).flatten).Perm L := by
  intro L
  induction L with
  | nil => intro key n _; simp
  | cons a t ih =>
    intro key n h
    have hka : key a < n := h a (List.mem_cons_self _ _)
    have hmapeq : (List.range n).map
        (fun s => (a :: t).filter (fun x => decide (key x = s))) =
        (List.range n).map (fun s =>
          if key a = s then a :: t.filter (fun x => decide (key x = s))
          else t.filter (fun x => decide (key x = s))) := by
      refine List.map_congr_left (fun s _ => ?_)
      by_cases hs : key a = s
      · rw [if_pos hs]
        simp [List.filter_cons, hs]
      · rw [if_neg hs]
        simp [List.filter_cons, hs]
    rw [hmapeq]
    refine (flatten_map_if_cons_perm (List.range n)
      (fun s => t.filter (fun x => decide (key x = s))) a (key a)
      (List.mem_range.mpr hka) (List.nodup_range n)).trans ?_
    exact (ih key n (fun x hx => h x (List.mem_cons_of_mem _ hx))).cons a

theorem flatten_map_perm_of_perm {β γ : Type} (l : List γ) (f g : γ → List β)
    (h : ∀ x ∈ l, (f x).Perm (g x)) :
    ((l.map f).flatten).Perm ((l.map g).flatten) := by
  induction l with
  | nil => simp
  | cons a t ih =>
    simp only [List.map_cons, List.flatten_cons]
    exact (h a (List.mem_cons_self _ _)).append
      (ih (fun x hx => h x (List.mem_cons_of_mem _ hx)))

theorem flatten_range_mul {β : Type} (nw : Nat) (f : Nat → List β) :
    ∀ ws, (((List.range ws).map
        (fun r => ((List.range nw).map (fun w => f (r * nw + w))).flatten)).flatten)
      = ((List.range (ws * nw)).map f).flatten := by
  intro ws
  induction ws with
  | zero => simp
  | succ m ih =>
    rw [List.range_succ, List.map_append, List.flatten_append, ih]
    have hmul : (m + 1) * nw = m * nw + nw := by ring
    rw [hmul, List.range_add, List.map_append, List.flatten_append]
    simp only [List.map_cons, List.map_nil, List.flatten_cons, List.flatten_nil,
      List.append_nil]
    congr 1
    rw [List.map_map]
    rfl

end WebDS

namespace WebDS

theorem slotSeq_perm_unshuffled (total C seed epoch slots slot : Nat) :
    (slotSeq total C seed epoch slots slot).Perm
      (((slotChunks total C seed epoch slots slot).map chunkIndices).flatten) :=
  flatten_map_perm_of_perm _ _ _ (fun _ _ => shuffleSeeded_perm _ _)

theorem sampler_union_perm (total C ws nw seed epoch : Nat)
    (hn : 0 < ws * nw) (hC : 0 < C) :
    (allIndices total C ws nw seed epoch).Perm (List.range total) := by
  have h0 : allIndices total C ws nw seed epoch =
      ((List.range (ws * nw)).map
        (fun slot => slotSeq total C seed epoch (ws * nw) slot)).flatten := by
    unfold allIndices rankWorkerSeq
    exact flatten_range_mul nw _ ws
  rw [h0]
  refine (flatten_map_perm_of_perm (List.range (ws * nw)) _ _
    (fun slot _ => slotSeq_perm_unshuffled total C seed epoch (ws * nw) slot)).trans ?_
  have h2 : ((List.range (ws * nw)).map (fun slot =>
      ((slotChunks total C seed epoch (ws * nw) slot).map chunkIndices).flatten)).flatten
      = ((((List.range (ws * nw)).map
          (fun slot => slotChunks total C seed epoch (ws * nw) slot)).flatten).map
            chunkIndices).flatten := by
    rw [List.map_flatten, List.map_map, List.flatten_flatten, List.map_map]
    rfl
  rw [h2]
  have h3 : (((List.range (ws * nw)).map
      (fun slot => slotChunks total C seed epoch (ws * nw) slot)).flatten).Perm
      (permutedChunks total C seed epoch) := by
    unfold slotChunks
    have h3a : ((List.range (ws * nw)).map (fun slot =>
        ((permutedChunks total C seed epoch).enum.filter
          (fun p => decide (p.1 % (ws * nw) = slot))).map Prod.snd)).flatten
        = (((List.range (ws * nw)).map (fun slot =>
            (permutedChunks total C seed epoch).enum.filter
              (fun p => decide (p.1 % (ws * nw) = slot)))).flatten).map Prod.snd := by
      rw [List.map_flatten, List.map_map]
      rfl
    rw [h3a]
    have h3b := flatten_range_filter_perm ((permutedChunks total C seed epoch).enum)
      (fun p => p.1 % (ws * nw)) (ws * nw) (fun _ _ => Nat.mod_lt _ hn)
    have h3c := h3b.map Prod.snd
    rw [List.enum_map_snd] at h3c
    exact h3c
  have h4 : (permutedChunks total C seed epoch).Perm (chunkList total C) :=
    shuffleSeeded_perm _ _
  have h5 := ((h3.trans h4).map chunkIndices).flatten
  refine h5.trans ?_
  rw [chunkList_flatten total C hC]

/-- C1: for every fixed configuration with a positive slot count
`world_size * num_workers` (and positive chunk size) and every epoch, the
Chunked Distributed Sampler's per-(rank, worker) index sequences, taken
together over all pairs, are a permutation of `[0, total)` — every global
index appears exactly once, with no duplicates and no omissions; and in the
concrete instance total 23, chunk size 5, there are 5 chunks of sizes
5,5,5,5,3 (chunks being assigned, in permuted order, to slot
`i % (world_size*num_workers)` by definition of the slot assignment). -/
theorem sampler_epoch_partition :
    (∀ total C ws nw seed epoch, 0 < ws * nw → 0 < C →
      (allIndices total C ws nw seed epoch).Perm (List.range total)) ∧
    (chunkList 23 5).map Prod.snd = [5, 5, 5, 5, 3] ∧
    numChunks 23 5 = 5 :=
  ⟨fun total C ws nw seed epoch hn hC =>
    sampler_union_perm total C ws nw seed epoch hn hC, rfl, rfl⟩

/-- Witness for C1: the partition at total 23, chunk size 5, world size 2,
one worker, base seed 0, epoch 0. -/
theorem sampler_epoch_partition_witness :
    (allIndices 23 5 2 1 0 0).Perm (List.range 23) :=
  sampler_epoch_partition.1 23 5 2 1 0 0 (by decide) (by decide)

end WebDS

namespace WebDS

/-! ## Sampler state machine: seeding, determinism, error conditions -/

/-- Modelled from the spec: the sampler's programmer-error class — invalid
world size (`InvalidWorldSizeError`) and indices requested before seeding
(`UninitializedSamplerError`); always fatal, surfaced as `Except.error`. -/
inductive SamplerError where
  | invalidWorldSize
  | uninitialized
deriving DecidableEq

/-- Modelled from the spec: the Chunked Distributed Sampler's fixed
configuration.  World size and worker count are integers so that zero and
negative values can be rejected as the spec requires. -/
structure SamplerConfig where
  total : Nat
  chunksize : Nat
  world_size : Int
  num_workers : Int
  seed : Nat
deriving DecidableEq

/-- Modelled from the spec: sampler state — its configuration and the seeded
epoch, `none` while still Uninitialized. -/
structure SamplerState where
  cfg : SamplerConfig
  epoch : Option Nat
deriving DecidableEq

/-- A freshly constructed sampler: no epoch seeded yet. -/
def mkSampler (cfg : SamplerConfig) : SamplerState := ⟨cfg, none⟩

/-- Seeding (or re-seeding) the sampler with an epoch number. -/
def setEpoch (st : SamplerState) (e : Nat) : SamplerState := { st with epoch := some e }

/-- Modelled from the spec: requesting the index sequence of a
`(rank, worker)` pair.  Fails with the invalid-world-size error when
`world_size * num_workers` is zero or negative, with the uninitialized error
when no epoch has been seeded, and otherwise deterministically yields the
pair's slot sequence for the seeded epoch. -/
def samplerIndices (st : SamplerState) (rank worker : Nat) :
    Except SamplerError (List Nat) :=
  if st.cfg.world_size * st.cfg.num_workers ≤ 0 then .error .invalidWorldSize
  else
    match st.epoch with
    | none => .error .uninitialized
    | some e =>
      .ok (slotSeq st.cfg.total st.cfg.chunksize st.cfg.seed e
        (st.cfg.world_size * st.cfg.num_workers).toNat
        (rank * st.cfg.num_workers.toNat + worker))

/-- C3: the sampler is deterministic in the epoch seed — the sequence
delivered after seeding depends only on the configuration and the epoch
number, so seeding two samplers of equal configuration (in any prior seeding
states) with the same epoch produces bit-identical index sequences; and, for
the distinctness of different epochs, the concrete configuration
(total 23, chunk size 5, seed 0) derives different chunk permutations for
epochs 0 and 1. -/
theorem sampler_epoch_determinism :
    (∀ (st₁ st₂ : SamplerState) (e rank worker : Nat), st₁.cfg = st₂.cfg →
      samplerIndices (setEpoch st₁ e) rank worker =
        samplerIndices (setEpoch st₂ e) rank worker) ∧
    permutedChunks 23 5 0 0 ≠ permutedChunks 23 5 0 1 := by
  constructor
  · intro st₁ st₂ e rank worker hcfg
    simp [samplerIndices, setEpoch, hcfg]
  · decide

/-- Witness for C3: seeding a fresh sampler with epoch 3 yields the same
sequence as re-seeding, with epoch 3, a sampler previously at epoch 7. -/
theorem sampler_epoch_determinism_witness :
    samplerIndices (setEpoch (mkSampler ⟨23, 5, 2, 1, 0⟩) 3) 0 0 =
      samplerIndices (setEpoch (setEpoch (mkSampler ⟨23, 5, 2, 1, 0⟩) 7) 3) 0 0 :=
  sampler_epoch_determinism.1 (mkSampler ⟨23, 5, 2, 1, 0⟩)
    (setEpoch (mkSampler ⟨23, 5, 2, 1, 0⟩) 7) 3 0 0 rfl

/-- C8: the sampler fails with the invalid-world-size error whenever
`world_size * num_workers` is zero or negative, and fails with the
uninitialized error whenever indices are requested before an epoch has been
seeded (in particular on a freshly constructed sampler); both are surfaced
as terminal `Except.error` values, never retried. -/
theorem sampler_error_conditions :
    (∀ (st : SamplerState) (rank worker : Nat),
      st.cfg.world_size * st.cfg.num_workers ≤ 0 →
      samplerIndices st rank worker = .error .invalidWorldSize) ∧
    (∀ (st : SamplerState) (rank worker : Nat),
      0 < st.cfg.world_size * st.cfg.num_workers → st.epoch = none →
      samplerIndices st rank worker = .error .uninitialized) ∧
    (∀ (cfg : SamplerConfig) (rank worker : Nat),
      0 < cfg.world_size * cfg.num_workers →
      samplerIndices (mkSampler cfg) rank worker = .error .uninitialized) := by
  refine ⟨?_, ?_, ?_⟩
  · intro st rank worker h
    simp [samplerIndices, h]
  · intro st rank worker h hwait
    rw [samplerIndices, if_neg (by omega), hwait]
  · intro cfg rank worker h
    rw [samplerIndices, if_neg (by simp [mkSampler]; omega)]
    rfl

/-- Witness for C8: a zero world size fails with the invalid-world-size
error, and a positive-configuration sampler that was never seeded fails with
the uninitialized error. -/
theorem sampler_error_conditions_witness :
    samplerIndices (mkSampler ⟨10, 5, 0, 4, 0⟩) 0 0 = .error .invalidWorldSize ∧
    samplerIndices (mkSampler ⟨10, 5, 2, 4, 0⟩) 0 0 = .error .uninitialized :=
  ⟨sampler_error_conditions.1 (mkSampler ⟨10, 5, 0, 4, 0⟩) 0 0 (by decide),
   sampler_error_conditions.2.2 ⟨10, 5, 2, 4, 0⟩ 0 0 (by decide)⟩

end WebDS

namespace WebDS

/-! ## Streaming Pipeline: epoch truncation over a resampled source -/

/-- Iterated linear congruential states, indexing a pseudo-random sequence. -/
def lcgIter : Nat → Nat → Nat
  | 0, s => s
  | n + 1, s => lcgNext (lcgIter n s)

/-- Pull up to `K` items off a stream read by position (`none` marks
exhaustion), stopping early if the stream ends. -/
def streamTake {α : Type} : Nat → (Nat → Option α) → List α
  | 0, _ => []
  | k + 1, s =>
    match s 0 with
    | none => []
    | some a => a :: streamTake k (fun n => s (n + 1))

/-- Modelled from the spec: `with_epoch(K)` — the Streaming Pipeline's epoch
truncation (not under src; the notebooks only call it), cutting an epoch to
at most `K` items of the underlying stream, exactly `K` when the stream does
not run out. -/
def with_epoch {α : Type} (K : Nat) (src : Nat → Option α) : List α :=
  streamTake K src

/-- Modelled from the spec: the resampled shard source — shards drawn with
replacement indefinitely, an infinite stream whenever the shard list is
non-empty. -/
def resampleStream {α : Type} (shards : List α) (seed : Nat) : Nat → Option α :=
  fun n => shards[(lcgIter n seed) % shards.length]?

theorem streamTake_length_of_total {α : Type} :
    ∀ (K : Nat) (src : Nat → Option α), (∀ n, (src n).isSome) →
      (streamTake K src).length = K := by
  intro K
  induction K with
  | zero => intro src _; rfl
  | succ k ih =>
    intro src h
    rw [streamTake]
    cases h0 : src 0 with
    | none => exact absurd (h 0) (by simp [h0])
    | some a =>
      simp only [List.length_cons]
      rw [ih (fun n => src (n + 1)) (fun n => h (n + 1))]

theorem resampleStream_total {α : Type} (shards : List α) (seed : Nat)
    (h : shards ≠ []) : ∀ n, (resampleStream shards seed n).isSome := by
  intro n
  unfold resampleStream
  have hlen : 0 < shards.length := List.length_pos.mpr h
  rw [List.getElem?_eq_getElem (Nat.mod_lt _ hlen)]
  rfl

/-- C4: for every infinite stream — in particular the resampled shard source
over a non-empty shard list — and every caller-supplied constant `K`, the
Streaming Pipeline's `with_epoch(K)` produces exactly `K` items per epoch
call, regardless of the underlying stream. -/
theorem with_epoch_exact_count :
    (∀ {α : Type} (K : Nat) (src : Nat → Option α), (∀ n, (src n).isSome) →
      (with_epoch K src).length = K) ∧
    (∀ {α : Type} (K : Nat) (shards : List α) (seed : Nat), shards ≠ [] →
      (with_epoch K (resampleStream shards seed)).length = K) :=
  ⟨fun K src h => streamTake_length_of_total K src h,
   fun K shards seed h =>
    streamTake_length_of_total K _ (resampleStream_total shards seed h)⟩

/-- Witness for C4: exactly 5 items from resampling a two-shard list. -/
theorem with_epoch_exact_count_witness :
    (with_epoch 5 (resampleStream ["s0.tar", "s1.tar"] 0)).length = 5 :=
  with_epoch_exact_count.2 5 ["s0.tar", "s1.tar"] 0 (by decide)

end WebDS

namespace WebDS

/-! ## Streaming Pipeline: node and worker shard splitting -/

/-- The elements of a list at positions congruent to `off` modulo `n`. -/
def every_nth {α : Type} (l : List α) (n off : Nat) : List α :=
  (l.enum.filter (fun p => p.1 % n = off)).map Prod.snd

/-- Modelled from the spec: `split_by_node` — node `rank` of `world` nodes
keeps the shards whose index is congruent to `rank` modulo `world` (the
implementation is not under src; the notebooks only pass it as the
`nodesplitter`). -/
def split_by_node {α : Type} (shards : List α) (rank world : Nat) : List α :=
  every_nth shards world rank

/-- Modelled from the spec: `split_by_worker` — the same index-modulo
slicing across the workers within one node. -/
def split_by_worker {α : Type} (shards : List α) (worker nworkers : Nat) : List α :=
  every_nth shards nworkers worker

/-- The shards one `(node, worker)` pair reads: node split first, then
worker split within the node. -/
def node_worker_shards {α : Type} (shards : List α)
    (node nnodes worker nworkers : Nat) : List α :=
  split_by_worker (split_by_node shards node nnodes) worker nworkers

theorem every_nth_sublist {α : Type} (l : List α) (n off : Nat) :
    (every_nth l n off).Sublist l := by
  unfold every_nth
  have h := (@List.filter_sublist _ (fun p => decide (p.1 % n = off)) l.enum).map Prod.snd
  rwa [List.enum_map_snd] at h

theorem mem_every_nth {α : Type} {l : List α} {n off : Nat} {x : α}
    (h : x ∈ every_nth l n off) : ∃ i, l[i]? = some x ∧ i % n = off := by
  unfold every_nth at h
  rw [List.mem_map] at h
  obtain ⟨p, hp, rfl⟩ := h
  rw [List.mem_filter] at hp
  obtain ⟨hpe, hpk⟩ := hp
  refine ⟨p.1, List.mem_enum_iff_getElem?.mp hpe, ?_⟩
  simpa using hpk

theorem every_nth_nodup {α : Type} {l : List α} (hl : l.Nodup) (n off : Nat) :
    (every_nth l n off).Nodup :=
  (every_nth_sublist l n off).nodup hl

theorem every_nth_disjoint {α : Type} {l : List α} (hl : l.Nodup)
    {n off1 off2 : Nat} (hne : off1 ≠ off2) {x : α}
    (h1 : x ∈ every_nth l n off1) : x ∉ every_nth l n off2 := by
  intro h2
  obtain ⟨i1, hi1, hk1⟩ := mem_every_nth h1
  obtain ⟨i2, hi2, hk2⟩ := mem_every_nth h2
  have hlen : i1 < l.length := by
    by_contra hge
    rw [List.getElem?_eq_none (by omega)] at hi1
    exact Option.noConfusion hi1
  have : i1 = i2 := List.getElem?_inj hlen hl (hi1.trans hi2.symm)
  subst this
  exact hne (hk1.symm.trans hk2)

/-- C5: in non-resampled mode the shard sequence is partitioned disjointly
across nodes first (index modulo node count) and then across workers within
a node (index modulo worker count): for any two distinct `(node, worker)`
pairs the sets of shards they read are disjoint, and no pair reads a shard
twice, so no sample is served twice within one epoch pass. -/
theorem split_by_node_worker_disjoint :
    (∀ {α : Type} (shards : List α) (nnodes nworkers n1 w1 n2 w2 : Nat),
      shards.Nodup → (n1, w1) ≠ (n2, w2) →
      ∀ x ∈ node_worker_shards shards n1 nnodes w1 nworkers,
        x ∉ node_worker_shards shards n2 nnodes w2 nworkers) ∧
    (∀ {α : Type} (shards : List α) (node nnodes worker nworkers : Nat),
      shards.Nodup →
      (node_worker_shards shards node nnodes worker nworkers).Nodup) := by
  constructor
  · intro α shards nnodes nworkers n1 w1 n2 w2 hnd hne x hx1 hx2
    by_cases hn : n1 = n2
    · subst hn
      have hw : w1 ≠ w2 := fun hw => hne (by rw [hw])
      have hndS : (split_by_node shards n1 nnodes).Nodup :=
        every_nth_nodup hnd nnodes n1
      exact every_nth_disjoint hndS hw hx1 hx2
    · have hxn1 : x ∈ split_by_node shards n1 nnodes :=
        (every_nth_sublist _ _ _).subset hx1
      have hxn2 : x ∈ split_by_node shards n2 nnodes :=
        (every_nth_sublist _ _ _).subset hx2
      exact every_nth_disjoint hnd hn hxn1 hxn2
  · intro α shards node nnodes worker nworkers hnd
    exact every_nth_nodup (every_nth_nodup hnd nnodes node) nworkers worker

/-- Witness for C5: with four shards, two nodes and two workers, the shards
of (node 0, worker 1) are not read by (node 1, worker 0): shard "b" belongs
only to the former. -/
theorem split_by_node_worker_disjoint_witness :
    "b" ∉ node_worker_shards ["a", "b", "c", "d"] 0 2 1 2 :=
  split_by_node_worker_disjoint.1 ["a", "b", "c", "d"] 2 2 1 0 0 1
    (by decide) (by decide) "b" (by decide)

end WebDS

namespace WebDS

/-! ## Cache Manager: byte budget and LRU eviction -/

/-- Modelled from the spec: one cache entry — shard url, size in bytes, and
the reader reference count (an entry with a positive count is held open). -/
structure CacheEntry where
  url : String
  size : Nat
  refcount : Nat
deriving DecidableEq

/-- Bytes used by the cache. -/
def cacheTotal (es : List CacheEntry) : Nat := (es.map (fun e => e.size)).sum

/-- Modelled from the spec: remove the least-recently-used entry that is not
held open.  The entry list is kept in recency order, most recent first, so
the removal searches from the tail; `none` when every entry is open. -/
def evictOne : List CacheEntry → Option (List CacheEntry)
  | [] => none
  | e :: rest =>
    match evictOne rest with
    | some rest2 => some (e :: rest2)
    | none => if e.refcount = 0 then some rest else none

/-- Modelled from the spec: evict least-recently-used entries until the
cache is within the byte budget (fuelled; the list length bounds the number
of evictions), stopping if only open entries remain. -/
def evictLoop : Nat → Nat → List CacheEntry → List CacheEntry
  | 0, _, es => es
  | fuel + 1, budget, es =>
    if cacheTotal es ≤ budget then es
    else
      match evictOne es with
      | none => es
      | some es2 => evictLoop fuel budget es2

/-- Eviction with enough fuel for the whole cache. -/
def evictToBudget (budget : Nat) (es : List CacheEntry) : List CacheEntry :=
  evictLoop es.length budget es

/-- Modelled from the spec: accessing a shard — a cached entry moves to the
front of the recency order, a new entry is downloaded and inserted in front,
and then least-recently-used entries are evicted until within budget. -/
def accessShard (budget : Nat) (es : List CacheEntry) (url : String) (size : Nat) :
    List CacheEntry :=
  let es2 :=
    match es.find? (fun e => e.url = url) with
    | some e => e :: es.filter (fun e2 => e2.url ≠ url)
    | none => CacheEntry.mk url size 0 :: es
  evictToBudget budget es2

theorem evictOne_keeps_open :
    ∀ (es es2 : List CacheEntry), evictOne es = some es2 →
      ∀ e ∈ es, 0 < e.refcount → e ∈ es2 := by
  intro es
  induction es with
  | nil => intro es2 h; simp [evictOne] at h
  | cons a rest ih =>
    intro es2 h e he href
    rw [evictOne] at h
    cases hrec : evictOne rest with
    | some rest2 =>
      rw [hrec] at h
      cases h
      rcases List.mem_cons.mp he with h1 | h1
      · subst h1; exact List.mem_cons_self _ _
      · exact List.mem_cons_of_mem _ (ih rest2 hrec e h1 href)
    | none =>
      rw [hrec] at h
      by_cases ha : a.refcount = 0
      · rw [if_pos ha] at h
        cases h
        rcases List.mem_cons.mp he with h1 | h1
        · subst h1; omega
        · exact h1
      · rw [if_neg ha] at h
        exact Option.noConfusion h

theorem evictLoop_keeps_open :
    ∀ (fuel budget : Nat) (es : List CacheEntry),
      ∀ e ∈ es, 0 < e.refcount → e ∈ evictLoop fuel budget es := by
  intro fuel
  induction fuel with
  | zero => intro budget es e he _; exact he
  | succ f ih =>
    intro budget es e he href
    rw [evictLoop]
    by_cases hb : cacheTotal es ≤ budget
    · rw [if_pos hb]; exact he
    · rw [if_neg hb]
      cases hev : evictOne es with
      | none => exact he
      | some es2 => exact ih budget es2 e (evictOne_keeps_open es es2 hev e he href) href

/-- C7: with a byte budget of 100 and same-size shards A, B, C of 40 bytes
accessed in that order (so that C's access exceeds the remaining budget),
eviction removes the least-recently-used entry A while B and C remain, when
no entry is held open; when A is instead held open by a reader
(refcount 1), A is never evicted and the least-recently-used unreferenced
entry B is evicted instead — in general an entry with a positive reference
count survives every eviction pass. -/
theorem cache_lru_eviction :
    (∀ (budget : Nat) (es : List CacheEntry) (e : CacheEntry),
      e ∈ es → 0 < e.refcount → e ∈ evictToBudget budget es) ∧
    accessShard 100 (accessShard 100 (accessShard 100 [] "A" 40) "B" 40) "C" 40 =
      [CacheEntry.mk "C" 40 0, CacheEntry.mk "B" 40 0] ∧
    evictToBudget 100
        [CacheEntry.mk "C" 40 0, CacheEntry.mk "B" 40 0, CacheEntry.mk "A" 40 1] =
      [CacheEntry.mk "C" 40 0, CacheEntry.mk "A" 40 1] :=
  ⟨fun budget es e he href => evictLoop_keeps_open es.length budget es e he href,
   rfl, rfl⟩

/-- Witness for C7: the held-open entry A of the scenario survives the
eviction pass. -/
theorem cache_lru_eviction_witness :
    CacheEntry.mk "A" 40 1 ∈ evictToBudget 100
      [CacheEntry.mk "C" 40 0, CacheEntry.mk "B" 40 0, CacheEntry.mk "A" 40 1] :=
  cache_lru_eviction.1 100
    [CacheEntry.mk "C" 40 0, CacheEntry.mk "B" 40 0, CacheEntry.mk "A" 40 1]
    (CacheEntry.mk "A" 40 1) (by decide) (by decide)

end WebDS
